import Mathlib

/-!
# Verification of the dask-awkward sandbox core

A shallow embedding, in Lean 4, of the graph-construction and indexing
machinery of the `dask_awkward` package (files `utils.py`, `core.py`,
`io.py` and `lib/optimize.py`), together with theorems settling the
stated properties of those functions.

Conventions used throughout:
* Python `int` is modelled as `Int` (`Nat` where the source can only
  produce non-negative values).
* Python tuples/lists of division boundaries are `List (Option Int)`;
  a `None` entry is `Option.none` (an unknown division).
* Python `dict`s are insertion-ordered association lists
  (`List (key × value)`), matching CPython's ordered-dict semantics.
* A function that can `raise` is modelled with `Except String`.
-/

namespace DaskAwkward

/-! ## `utils.py`: `normalize_single_outer_inner_index` -/

/-- `np.digitize(x, bins)` for monotonically non-decreasing `bins`
(the only way `utils.py` calls it): numpy documents it as
`np.searchsorted(bins, x, side="right")`, i.e. the number of entries of
`bins` that are `≤ x`. -/
def digitize (x : Int) (bins : List Int) : Nat :=
  bins.countP (fun b => decide (b ≤ x))

/-- Python sequence indexing `l[i]` with negative-index wrap-around, as used
by `divisions[-1]` and `divisions[partition_index]` in `utils.py`.  Out of
range access (an `IndexError` in Python, never hit by the claims'
preconditions) defaults to `0`. -/
def pyGet (l : List Int) (i : Int) : Int :=
  if 0 ≤ i then l.getD i.toNat 0 else l.getD (l.length - (-i).toNat) 0

/-- The part of `normalize_single_outer_inner_index` after the negative-index
wrap-around (in Python the function reassigns `index` and falls through to
this code). -/
def normalize_after_wrap (divisions : List Int) (index : Int) : Int × Int :=
  if divisions.length = 2 then (0, index)
  else
    let partition_index : Int := (digitize index divisions : Int) - 1
    let new_index : Int := index - pyGet divisions partition_index
    (partition_index, new_index)

/-- `dask_awkward.utils.normalize_single_outer_inner_index(divisions, index)`:
determine the partition index and the inner (within-partition) index for a
global index.  A negative `index` is first wrapped by `divisions[-1]`. -/
def normalize_single_outer_inner_index (divisions : List Int) (index : Int) :
    Int × Int :=
  normalize_after_wrap divisions
    (if index < 0 then pyGet divisions (-1) + index else index)

/-! ## `core.py`: the lazy collection data model

Graphs are abstracted to the single layer a constructor adds: a layer is an
insertion-ordered mapping from output key to task (a Python `dict`), which is
what each of the embedded constructors builds.  The ancestor layers merged by
`HighLevelGraph.from_collections` are untouched by every claim and are not
represented. -/

/-- A metadata placeholder (an awkward "typetracer" array).  Its internal
structure is the value engine's concern (out of scope); the embedding only
tracks how placeholders are produced. -/
inductive Meta where
  /-- a typetracer described by its form (e.g. the one a source reader declares) -/
  | tracer (form : String)
  /-- `operator.getitem(self.meta, key.meta)`: the placeholder of a selection,
  produced by applying the selection to the operands' placeholders directly -/
  | selected (base : Meta) (key : Meta)
  /-- the placeholder derived by the eager fallback in `_get_typetracer`,
  i.e. computed from the first real partition -/
  | derived
deriving DecidableEq, Repr

/-- A key in a dask task graph: either a plain string (the single output key
of a `Scalar`/`Record`) or a `(name, partition-index)` tuple (one output key
per partition of an `Array`). -/
inductive GKey where
  | flat (name : String)
  | part (name : String) (i : Nat)
deriving DecidableEq, Repr

/-- A task descriptor (the value stored in a graph layer for one key),
covering the task shapes the embedded constructors build. -/
inductive Task where
  /-- `tuple(key)`: a pure key reference (the renaming tasks of `_partitions`) -/
  | keyref (k : GKey)
  /-- `(func, k)`: apply a one-argument function to another key's output -/
  | applyFn (func : String) (k : GKey)
  /-- `(agg, [k1, ..., kn])`: apply an aggregation to a list of keys' outputs -/
  | applyAgg (agg : String) (ks : List GKey)
  /-- `(operator.getitem, sk, kk)`: partitionwise boolean-mask selection -/
  | getitemKey (sk : GKey) (kk : GKey)
deriving DecidableEq, Repr

/-- A graph layer: a `dict` from output key to task, in insertion order. -/
abbrev Layer := List (GKey × Task)

/-- The attributes of a `dask_awkward.core.Array` collection relevant here:
backing graph name (the unique output-key prefix), metadata placeholder
(`None` allowed) and the divisions tuple, whose entries are `None` (unknown)
or integers. -/
structure DakArray where
  name : String
  meta : Option Meta
  divisions : List (Option Int)
deriving DecidableEq, Repr

/-- `Array.npartitions`: `len(self.divisions) - 1`. -/
def DakArray.npartitions (a : DakArray) : Nat := a.divisions.length - 1

/-- `Array.known_divisions`:
`len(self.divisions) > 0 and None not in self.divisions`. -/
def DakArray.known_divisions (a : DakArray) : Bool :=
  decide (0 < a.divisions.length) && a.divisions.all Option.isSome

/-- `Array.__dask_keys__()`: `[(self.name, i) for i in range(self.npartitions)]`. -/
def DakArray.dask_keys (a : DakArray) : List GKey :=
  (List.range a.npartitions).map (GKey.part a.name)

/-- The attributes of a `dask_awkward.core.Scalar` collection: graph name
(single output key) and optional metadata. -/
structure ScalarModel where
  name : String
  meta : Option Meta
deriving DecidableEq, Repr

/-- `Scalar.__dask_keys__()`: `[self._name]`. -/
def ScalarModel.dask_keys (s : ScalarModel) : List GKey := [GKey.flat s.name]

/-! ## `core.py`: `pw_reduction_with_agg_to_scalar` -/

/-- `dask_awkward.core.pw_reduction_with_agg_to_scalar(array, func, agg)`,
returning the graph layer it builds together with the resulting `Scalar`.
The layer is the dict
`{(name, i): (func, k) for i, k in enumerate(array.__dask_keys__())}`
extended with `dsk[name] = (agg, list(dsk.keys()))` (CPython dicts preserve
insertion order, so `list(dsk.keys())` is the ordered list of the
per-partition task keys). -/
def pw_reduction_with_agg_to_scalar (array : DakArray) (func agg : String)
    (name : String) : Layer × ScalarModel :=
  let partTasks : Layer :=
    array.dask_keys.enum.map (fun ik => (GKey.part name ik.1, Task.applyFn func ik.2))
  let layer : Layer :=
    partTasks ++ [(GKey.flat name, Task.applyAgg agg (partTasks.map Prod.fst))]
  (layer, { name := name, meta := none })

/-! ## `core.py`: `new_array_object` -/

/-- What constructing an `Array` via `new_array_object` produced: the
collection itself, plus whether the construction executed the collection's
backing graph for partition `0` (`_get_typetracer` → `_first_partition` →
`self.__dask_scheduler__`, the eager metadata fallback). -/
structure NewArrayOutcome where
  array : DakArray
  computedFirstPartition : Bool
deriving DecidableEq, Repr

/-- The tail of `new_array_object` once divisions are settled: build the
`Array`, and if `meta is None` derive it eagerly via `_get_typetracer`, which
computes the first partition with the scheduler.  (When that derivation fails
with one of the caught exception types the meta stays `None`; the embedding
records the successful derivation, and in either case the compute was
triggered.) -/
def attachArrayMeta (name : String) (meta : Option Meta)
    (divisions : List (Option Int)) : NewArrayOutcome :=
  match meta with
  | some m => ⟨⟨name, some m, divisions⟩, false⟩
  | none => ⟨⟨name, some Meta.derived, divisions⟩, true⟩

/-- `dask_awkward.core.new_array_object(dsk, name, meta, npartitions,
divisions)`: exactly one of `npartitions` and `divisions` must be given;
`npartitions` alone yields `npartitions + 1` unknown divisions. -/
def new_array_object (name : String) (meta : Option Meta)
    (npartitions : Option Nat) (divisions : Option (List (Option Int))) :
    Except String NewArrayOutcome :=
  match divisions, npartitions with
  | none, some n => .ok (attachArrayMeta name meta (List.replicate (n + 1) none))
  | some _, some _ =>
    .error "ValueError: Only one of either divisions or npartitions must be defined."
  | none, none =>
    .error "ValueError: One of either divisions or npartitions must be defined."
  | some d, none => .ok (attachArrayMeta name meta d)

/-! ## `core.py`: `Array._partitions` -/

/-- A partition selector accepted by `Array.partitions[...]`: an integer, a
slice (modelled without a step), or a list of integers. -/
inductive PSel where
  | int (i : Int)
  | slice (start stop : Option Int)
  | list (ixs : List Int)
deriving DecidableEq, Repr

/-- The result of `dask.array.slicing.normalize_index` on a selector over the
one-dimensional shape `(npartitions,)`: a bounds-checked non-negative integer,
or the selected positions of a slice / integer list. -/
inductive NSel where
  | int (k : Nat)
  | slice (ks : List Nat)
  | list (ks : List Nat)
deriving DecidableEq, Repr

/-- Normalization of a single integer index against length `n`: negative
indices wrap once by `n`; out-of-bounds raises `IndexError`. -/
def normalizeIntIndex (n : Nat) (i : Int) : Except String Nat :=
  let j := if i < 0 then i + n else i
  if 0 ≤ j ∧ j < n then .ok j.toNat
  else .error "IndexError: index out of bounds"

/-- Normalization of a (step-free) slice against length `n`: defaults filled
in, negative endpoints wrapped by `n`, both endpoints clamped to `[0, n]`;
the result is the list of selected positions. -/
def normalizeSlice (n : Nat) (start stop : Option Int) : List Nat :=
  let s : Int := match start with
    | none => 0
    | some v => if v < 0 then max 0 (v + n) else min v n
  let e : Int := match stop with
    | none => n
    | some v => if v < 0 then max 0 (v + n) else min v n
  (List.range n).filter (fun k => decide (s ≤ (k : Int)) && decide ((k : Int) < e))

/-- Normalization of every element of an integer-list selector, failing on
the first out-of-bounds element. -/
def normalizeIntList (n : Nat) : List Int → Except String (List Nat)
  | [] => .ok []
  | i :: rest =>
    match normalizeIntIndex n i, normalizeIntList n rest with
    | .ok k, .ok ks => .ok (k :: ks)
    | .error e, _ => .error e
    | .ok _, .error e => .error e

/-- `normalize_index(index, (self.npartitions,))` for the selector shapes of
`Array._partitions`. -/
def normalize_index (sel : PSel) (n : Nat) : Except String NSel :=
  match sel with
  | .int i => (normalizeIntIndex n i).map NSel.int
  | .slice s e => .ok (NSel.slice (normalizeSlice n s e))
  | .list ixs => (normalizeIntList n ixs).map NSel.list

/-- A graph-building step's result: the layer it adds and the constructed
collection (with the eager-compute record of `new_array_object`). -/
structure ArrayGraphResult where
  layer : Layer
  outcome : NewArrayOutcome
deriving DecidableEq, Repr

/-- `new_keys = self.keys_array[index].tolist()`: the output keys of `self`
selected by the normalized selector (a normalized integer `k` was replaced
by `slice(k, k+1)`, selecting exactly the key `(self.name, k)`). -/
def selectedKeys (self : DakArray) (raw : NSel) : List GKey :=
  match raw with
  | .int k => [GKey.part self.name k]
  | .slice ks => ks.map (GKey.part self.name)
  | .list ks => ks.map (GKey.part self.name)

/-- The divisions `Array._partitions` gives the selected collection: derived
by subtraction when the selector was a single (normalized) integer and the
source divisions are known, and `(None,) * (len(new_keys) + 1)` otherwise. -/
def partitionsDivisions (self : DakArray) (raw : NSel) (nkeys : Nat) :
    List (Option Int) :=
  match raw with
  | .int k =>
    if self.known_divisions then
      [some 0, some ((self.divisions.getD (k + 1) none).getD 0 -
                     (self.divisions.getD k none).getD 0)]
    else List.replicate (nkeys + 1) none
  | _ => List.replicate (nkeys + 1) none

/-- `dask_awkward.core.Array._partitions(self, index)`: normalize the
selector, select the corresponding output keys of `self`, build the renaming
layer `{(name, i): tuple(key)}`, and construct the new `Array` (with
`meta=None`) over the divisions of `partitionsDivisions`. -/
def DakArray._partitions (self : DakArray) (index : PSel) (name : String) :
    Except String ArrayGraphResult :=
  match normalize_index index self.npartitions with
  | .error e => .error e
  | .ok raw =>
    let new_keys : List GKey := selectedKeys self raw
    let dsk : Layer :=
      new_keys.enum.map (fun ik => (GKey.part name ik.1, Task.keyref ik.2))
    match new_array_object name none none
        (some (partitionsDivisions self raw new_keys.length)) with
    | .error e => .error e
    | .ok outcome => .ok { layer := dsk, outcome := outcome }

/-! ## `core.py`: `Array._getitem_boolean_lazy_array` -/

/-- The `ValueError` message of the `_getitem_boolean_lazy_array` guards
(sic: the typo "they key" is the source's). -/
def boolMaskError : String :=
  "ValueError: The boolean array (they key in this getitem call) must be partitioned in the same way as this array."

/-- The two `raise ValueError` guards at the top of
`_getitem_boolean_lazy_array`: with both divisions known they must be
identical; otherwise the partition counts must agree. -/
def checkBoolMaskPartitioning (self key : DakArray) : Except String Unit :=
  if key.known_divisions && self.known_divisions then
    if key.divisions = self.divisions then .ok ()
    else .error boolMaskError
  else
    if key.npartitions = self.npartitions then .ok ()
    else .error boolMaskError

/-- The `new_meta` computation of `_getitem_boolean_lazy_array`:
`operator.getitem(self.meta, key.meta)` when `key.meta` is present — a
`TypeError` when `self.meta` is `None`, since `None` is not subscriptable. -/
def boolMaskNewMeta (self key : DakArray) : Except String (Option Meta) :=
  match key.meta with
  | none => .ok none
  | some km =>
    match self.meta with
    | none => .error "TypeError: NoneType object is not subscriptable"
    | some sm => .ok (some (Meta.selected sm km))

/-- `dask_awkward.core.Array._getitem_boolean_lazy_array(self, key)`: after
the alignment guards and the `new_meta` derivation, the layer filters each
partition key by the aligned mask partition key, and the new `Array` is
built with `divisions=self.divisions`. -/
def DakArray._getitem_boolean_lazy_array (self key : DakArray) (name : String) :
    Except String ArrayGraphResult :=
  match checkBoolMaskPartitioning self key with
  | .error e => .error e
  | .ok _ =>
    match boolMaskNewMeta self key with
    | .error e => .error e
    | .ok new_meta =>
      let dsk : Layer := (self.dask_keys.zip key.dask_keys).enum.map
        (fun ie => (GKey.part name ie.1, Task.getitemKey ie.2.1 ie.2.2))
      match new_array_object name new_meta none (some self.divisions) with
      | .error e => .error e
      | .ok outcome => .ok { layer := dsk, outcome := outcome }

/-! ## `core.py`: `map_partitions` -/

/-- A positional argument of `map_partitions`: an `Array` collection or a
plain (non-collection) value.  (Other dask collections are rejected by
`partitionwise_layer` and are not part of the claims.) -/
inductive MPArg where
  | coll (a : DakArray)
  | plain (v : Int)
deriving DecidableEq, Repr

/-- `dask_awkward.core.map_partitions(func, *args, meta=...)`: builds the
blockwise layer (which cannot raise for `Array`/plain arguments) and then
constructs the result with `divisions=args[0].divisions` — an `IndexError`
when `args` is empty and an `AttributeError` when `args[0]` is not an
`Array`. -/
def map_partitions (args : List MPArg) (meta : Option Meta) (name : String) :
    Except String NewArrayOutcome :=
  match args with
  | [] => .error "IndexError: tuple index out of range"
  | .plain _ :: _ => .error "AttributeError: object has no attribute divisions"
  | .coll a :: _ => new_array_object name meta none (some a.divisions)

/-! ## `io.py`: `from_awkward` -/

/-- `int(ceil(nrows / npartitions))` as the exact rational ceiling (the
Python source computes it through float division, which agrees at these
magnitudes). -/
def ceilDivNat (a b : Nat) : Nat := (a + b - 1) / b

/-- Python `range(0, stop, step)` for `step ≥ 1`: the `ceil(stop/step)`
values `0, step, 2*step, …` strictly below `stop`. -/
def pyRange0 (stop step : Nat) : List Nat :=
  (List.range (ceilDivNat stop step)).map (· * step)

/-- `locs = list(range(0, nrows, chunksize)) + [nrows]` with
`chunksize = int(ceil(nrows / npartitions))`. -/
def from_awkward_locs (nrows npartitions : Nat) : List Nat :=
  pyRange0 nrows (ceilDivNat nrows npartitions) ++ [nrows]

/-- `dask_awkward.io.from_awkward(source, npartitions)` restricted to what
the claims observe: the layer of `len(locs) - 1` slice tasks is elided, and
the collection is built with `divisions=tuple(locs)` and the source's
typetracer as `meta`. -/
def from_awkward (nrows npartitions : Nat) (name : String) :
    Except String NewArrayOutcome :=
  new_array_object name (some (Meta.tracer "source-typetracer")) none
    (some ((from_awkward_locs nrows npartitions).map
      (fun v : Nat => some (v : Int))))

/-! ## `lib/optimize.py`: the column-projection optimizer

The optimizer operates on `HighLevelGraph`s whose layers may be
`AwkwardIOLayer`s.  That class lives in `dask_awkward.layers`, a module
absent from the supplied sources, so its relevant surface is modelled from
the spec (§4.6 step 1 and the §6 source-reader contract). -/

/-- The selection argument of an `operator.getitem` blockwise layer
(`layer.indices[1][0]`): a single field name or a list of field names. -/
inductive BwArg where
  | colStr (s : String)
  | colList (ss : List String)
deriving DecidableEq, Repr

/-- A graph layer as the optimizer sees it. -/
inductive GLayer where
  /-- Modelled from the spec: an `AwkwardIOLayer` (`dask_awkward.layers` is
  not in the sources) — a source layer produced directly by a source-reading
  collaborator.  `projectable` records whether its `io_func` exposes the
  optional narrow-to-these-fields rebuild (`project_columns`); `columns` is
  `none` for a reader of all declared fields and `some s` after narrowing to
  the field set `s`. -/
  | ioLayer (projectable : Bool) (columns : Option (Finset String))
  /-- a `Blockwise` layer: whether its task head (`layer.dsk[layer.output][0]`)
  is `operator.getitem`, and its selection argument `indices[1][0]` -/
  | blockwiseL (isGetitem : Bool) (keyArg : BwArg)
  /-- any other (e.g. materialized) layer -/
  | otherL (tag : String)
deriving DecidableEq

/-- Modelled from the spec: `AwkwardIOLayer.project_columns(columns)`
(the class is not in the sources) — the collaborator's narrowed rebuild,
replacing the source layer by one that reads exactly the given field set
(§4.6 step 3); never invoked on non-source layers (identity there). -/
def project_columns : GLayer → Finset String → GLayer
  | .ioLayer p _, cols => .ioLayer p (some cols)
  | l, _ => l

/-- `isinstance(v, AwkwardIOLayer) and hasattr(v.io_func, "project_columns")`. -/
def isProjectableIO : GLayer → Bool
  | .ioLayer p _ => p
  | _ => false

/-- `_is_getitem(layer)`: `layer` is a `Blockwise` whose task head is
`operator.getitem`.  (An `AwkwardIOLayer`'s head is its reader callable, so
it is never a getitem layer.) -/
def _is_getitem : GLayer → Bool
  | .blockwiseL g _ => g
  | _ => false

/-- `_requested_columns(layer)`: `set(fn_arg)` when the getitem argument is a
field list, `{fn_arg}` when it is a single field name. -/
def _requested_columns : GLayer → Finset String
  | .blockwiseL _ (.colStr s) => {s}
  | .blockwiseL _ (.colList ss) => ss.toFinset
  | _ => ∅

/-- A `HighLevelGraph` as the optimizer sees it: the `layers` dict (name →
layer, insertion-ordered) and the `dependencies` dict (layer name → names of
the layers it depends on). -/
structure HLGraph where
  layers : List (String × GLayer)
  dependencies : List (String × List String)
deriving DecidableEq

/-- `dsk.layers[k]` (`none` when the key is absent). -/
def HLGraph.getLayer (dsk : HLGraph) (n : String) : Option GLayer :=
  (dsk.layers.find? (fun nv => nv.1 == n)).map Prod.snd

/-- `dsk.dependents[name]`: the inversion of the dependency relation — the
layers whose dependencies include `name`. -/
def HLGraph.dependents (dsk : HLGraph) (n : String) : List String :=
  (dsk.dependencies.filter (fun kd => decide (n ∈ kd.2))).map Prod.fst

/-- `pio_layer_names`: the names of column-projectable source layers. -/
def pioLayerNames (dsk : HLGraph) : List String :=
  (dsk.layers.filter (fun nv => isProjectableIO nv.2)).map Prod.fst

/-- `seed_columns` for one source layer: the union of `_requested_columns`
over its direct dependents that satisfy `_is_getitem`. -/
def seedColumns (dsk : HLGraph) (pio : String) : Finset String :=
  let getitemDependents := (dsk.dependents pio).filter
    (fun k => match dsk.getLayer k with
      | some l => _is_getitem l
      | none => false)
  getitemDependents.foldl (fun acc gid => acc ∪ (match dsk.getLayer gid with
    | some l => _requested_columns l
    | none => ∅)) ∅

/-- `layers[name] = new_layer`: in-place update of the layers dict
(replacement keeps the insertion position). -/
def setLayer (layers : List (String × GLayer)) (n : String) (l : GLayer) :
    List (String × GLayer) :=
  layers.map (fun nv => if nv.1 = n then (nv.1, l) else nv)

/-- `layers[name]` with a first-match lookup (a `KeyError` cannot occur on
the names the optimizer uses). -/
def getLayerD (layers : List (String × GLayer)) (n : String) : GLayer :=
  ((layers.find? (fun nv => nv.1 == n)).map Prod.snd).getD (GLayer.otherL "KeyError")

/-- One iteration of the optimizer's update loop over `pio_layer_names`:
when the seed set of the source layer `n` is non-empty
(`if seed_columns:`), replace that entry of the layers dict by its
`project_columns` rebuild on exactly the seed set; otherwise leave the dict
alone. -/
def optStep (dsk : HLGraph) (ls : List (String × GLayer)) (n : String) :
    List (String × GLayer) :=
  if seedColumns dsk n ≠ ∅ then
    setLayer ls n (project_columns (getLayerD ls n) (seedColumns dsk n))
  else ls

/-- `dask_awkward.lib.optimize.optimize_iolayer_columns(dsk)` — the
`NEW_METHOD` branch, which is the live one (`NEW_METHOD = 1`): when the graph
holds no column-projectable `AwkwardIOLayer` it is returned unchanged;
otherwise each such layer whose direct getitem dependents request a
non-empty column set is replaced (in a copy of the layers dict) by its
`project_columns` rebuild on exactly that seed set, and the graph is rebuilt
over the unchanged dependencies. -/
def optimize_iolayer_columns (dsk : HLGraph) : HLGraph :=
  if (pioLayerNames dsk).isEmpty then dsk
  else
    { layers := (pioLayerNames dsk).foldl (optStep dsk) dsk.layers,
      dependencies := dsk.dependencies }

/-- The per-entry effect of the optimizer on the layers dict, used to state
its characterization: a column-projectable source entry with a non-empty
seed set is replaced by its narrowed rebuild on exactly that seed; every
other entry is untouched. -/
def optimizedEntry (dsk : HLGraph) (nv : String × GLayer) : String × GLayer :=
  if isProjectableIO nv.2 = true ∧ seedColumns dsk nv.1 ≠ ∅ then
    (nv.1, project_columns nv.2 (seedColumns dsk nv.1))
  else nv

/-! ### Helper lemmas on enumerated ranges -/

theorem enumFrom_map_range' {α β : Type} (f : Nat → α) (h : Nat → α → β) :
    ∀ (n k : Nat),
      (((List.range' k n).map f).enumFrom k).map (fun ik => h ik.1 ik.2) =
      (List.range' k n).map (fun i => h i (f i)) := by
  intro n
  induction n with
  | zero => intro k; rfl
  | succ m ih =>
    intro k
    show (((k :: List.range' (k + 1) m).map f).enumFrom k).map _ = _
    simp only [List.map_cons, List.enumFrom_cons]
    rw [ih (k + 1)]
    rfl

/-- `enumerate`-then-build over the keys of an `Array`, as a plain map over
the partition indices. -/
theorem enum_dask_keys_map {β : Type} (a : DakArray) (h : Nat → GKey → β) :
    a.dask_keys.enum.map (fun ik => h ik.1 ik.2) =
    (List.range a.npartitions).map (fun i => h i (GKey.part a.name i)) := by
  unfold DakArray.dask_keys
  rw [List.enum_eq_enumFrom, List.range_eq_range']
  exact enumFrom_map_range' (GKey.part a.name) h a.npartitions 0

/-! ### Facts about `digitize` over sorted division sequences -/

/-- Over a `≤`-sorted list, the entries that are `≤ x` form a prefix, so the
`j`-th entry is `≤ x` exactly when `j` is below the count of such entries. -/
theorem getD_le_iff_lt_digitize (d : List Int) (x : Int)
    (hs : List.Pairwise (· ≤ ·) d) :
    ∀ j, j < d.length → (d.getD j 0 ≤ x ↔ j < digitize x d) := by
  induction d with
  | nil => intro j hj; simp at hj
  | cons a t ih =>
    intro j hj
    have hat : ∀ b ∈ t, a ≤ b := (List.pairwise_cons.mp hs).1
    have hts : List.Pairwise (· ≤ ·) t := (List.pairwise_cons.mp hs).2
    by_cases hax : a ≤ x
    · have hcount : digitize x (a :: t) = digitize x t + 1 := by
        simp [digitize, List.countP_cons, hax]
      cases j with
      | zero =>
        simp only [List.getD_cons_zero, hcount]
        exact ⟨fun _ => Nat.succ_pos _, fun _ => hax⟩
      | succ k =>
        have hk : k < t.length := by simpa using hj
        have hiter := ih hts k hk
        simp only [List.getD_cons_succ, hcount]
        rw [hiter]
        omega
    · -- `a > x`, and every entry of `t` is `≥ a`, so no entry is `≤ x`.
      have hnone : ∀ b ∈ t, ¬ b ≤ x := fun b hb hbx => hax (le_trans (hat b hb) hbx)
      have hcount : digitize x (a :: t) = 0 := by
        simp only [digitize, List.countP_cons]
        have h1 : (decide (a ≤ x)) = false := by simpa using hax
        have h2 : t.countP (fun b => decide (b ≤ x)) = 0 := by
          rw [List.countP_eq_zero]
          intro b hb
          simpa using hnone b hb
        simp [h1, h2]
      rw [hcount]
      constructor
      · intro hle
        exfalso
        cases j with
        | zero => exact hax (by simpa using hle)
        | succ k =>
          have hk : k < t.length := by simpa using hj
          have hmem : t.getD k 0 ∈ t := by
            have h1 : t.getD k 0 = t[k] := by
              rw [List.getD_eq_getElem?_getD, List.getElem?_eq_getElem hk]
              rfl
            rw [h1]
            exact List.getElem_mem hk
          exact hnone _ hmem (by simpa using hle)
      · intro hlt; exact absurd hlt (Nat.not_lt_zero _)

/-- C1: for every valid divisions sequence `d` (non-decreasing, starting at
`0`, length ≥ 2) and every `i` in `[0, d[-1])`,
`normalize_single_outer_inner_index d i` returns a pair `(p, r)` with
`d[p] ≤ i < d[p+1]` and `r = i - d[p]`; and for every negative `i` with
`-d[-1] ≤ i < 0` it returns the same pair as for `i + d[-1]`. -/
theorem normalize_single_outer_inner_index_correct (d : List Int) (i : Int)
    (hlen : 2 ≤ d.length) (hsort : List.Pairwise (· ≤ ·) d)
    (hzero : d.getD 0 0 = 0) :
    (0 ≤ i → i < d.getD (d.length - 1) 0 →
      ∃ p : Nat, normalize_single_outer_inner_index d i =
          ((p : Int), i - d.getD p 0) ∧
        p + 1 < d.length ∧ d.getD p 0 ≤ i ∧ i < d.getD (p + 1) 0) ∧
    (-(d.getD (d.length - 1) 0) ≤ i → i < 0 →
      normalize_single_outer_inner_index d i =
        normalize_single_outer_inner_index d (i + d.getD (d.length - 1) 0)) := by
  have hpy1 : pyGet d (-1) = d.getD (d.length - 1) 0 := by
    simp [pyGet]
  constructor
  · intro hge hub
    have hwrap : normalize_single_outer_inner_index d i = normalize_after_wrap d i := by
      unfold normalize_single_outer_inner_index
      rw [if_neg (by omega)]
    by_cases h2 : d.length = 2
    · refine ⟨0, ?_, ?_, ?_, ?_⟩
      · rw [hwrap]
        unfold normalize_after_wrap
        rw [if_pos h2, hzero]
        norm_num
      · omega
      · rw [hzero]; exact hge
      · have : d.length - 1 = 0 + 1 := by omega
        rw [← this]; exact hub
    · -- general case: the partition index comes from `digitize`.
      have hiff := getD_le_iff_lt_digitize d i hsort
      have hc0 : 0 < digitize i d := by
        rw [← hiff 0 (by omega)]
        rw [hzero]; exact hge
      have hclast : ¬ (d.length - 1 < digitize i d) := by
        rw [← hiff (d.length - 1) (by omega)]
        omega
      set c := digitize i d with hc
      refine ⟨c - 1, ?_, by omega, ?_, ?_⟩
      · rw [hwrap]
        unfold normalize_after_wrap
        rw [if_neg h2]
        have hcast : (c : Int) - 1 = ((c - 1 : Nat) : Int) := by omega
        have hpygd : pyGet d ((c : Int) - 1) = d.getD (c - 1) 0 := by
          rw [hcast]
          simp [pyGet]
        show ((c : Int) - 1, i - pyGet d ((c : Int) - 1)) = _
        rw [hpygd, hcast]
      · exact (hiff (c - 1) (by omega)).mpr (by omega)
      · have hnotle : ¬ (d.getD (c - 1 + 1) 0 ≤ i) := by
          rw [hiff (c - 1 + 1) (by omega)]
          omega
        omega
  · intro hge hlt
    unfold normalize_single_outer_inner_index
    rw [if_pos hlt, if_neg (by rw [hpy1] at *; omega), hpy1]
    rw [Int.add_comm]

/-- C2: for every `Array` with `n` partitions,
`pw_reduction_with_agg_to_scalar` builds a layer of exactly `n + 1` tasks:
for each `i < n` the task `(func, (array.name, i))` under key `(name, i)`,
plus one task applying `agg` to the ordered list of all `n` per-partition
result keys `(name, 0), ..., (name, n-1)`; the returned collection is a
`Scalar` with the single output key `name`. -/
theorem pw_reduction_with_agg_to_scalar_tasks (a : DakArray)
    (func agg name : String) :
    ((pw_reduction_with_agg_to_scalar a func agg name).1.length
        = a.npartitions + 1) ∧
    (∀ i, i < a.npartitions →
      (pw_reduction_with_agg_to_scalar a func agg name).1[i]? =
        some (GKey.part name i, Task.applyFn func (GKey.part a.name i))) ∧
    ((pw_reduction_with_agg_to_scalar a func agg name).1[a.npartitions]? =
      some (GKey.flat name,
        Task.applyAgg agg ((List.range a.npartitions).map (GKey.part name)))) ∧
    (pw_reduction_with_agg_to_scalar a func agg name).2.dask_keys
      = [GKey.flat name] := by
  have hpt :
      (pw_reduction_with_agg_to_scalar a func agg name).1 =
      ((List.range a.npartitions).map
        (fun i => (GKey.part name i, Task.applyFn func (GKey.part a.name i)))) ++
      [(GKey.flat name,
        Task.applyAgg agg ((List.range a.npartitions).map (GKey.part name)))] := by
    unfold pw_reduction_with_agg_to_scalar
    rw [enum_dask_keys_map a
      (fun i k => (GKey.part name i, Task.applyFn func k))]
    simp only [List.map_map]
    rfl
  refine ⟨?_, ?_, ?_, rfl⟩
  · rw [hpt]
    simp
  · intro i hi
    rw [hpt, List.getElem?_append_left (by simpa using hi)]
    simp [List.getElem?_range, hi]
  · rw [hpt, List.getElem?_append]
    have hlen : ((List.range a.npartitions).map
        (fun i => (GKey.part name i, Task.applyFn func (GKey.part a.name i)))).length
        = a.npartitions := by simp
    rw [hlen]
    simp

/-- C2 witness: the spec's scenario, a reduction-with-aggregation over `4`
partitions with per-partition function `count` and aggregator `sum`: the
layer has exactly `5` tasks (4 partition tasks plus 1 aggregation task whose
input is the ordered key list), and the result is a `Scalar` with one output
key. -/
theorem pw_reduction_with_agg_to_scalar_witness :
    ((pw_reduction_with_agg_to_scalar
        ⟨"arr", some (Meta.tracer "t"), [some 0, some 2, some 4, some 6, some 8]⟩
        "count" "sum" "count-tok").1.length = 5) ∧
    ((pw_reduction_with_agg_to_scalar
        ⟨"arr", some (Meta.tracer "t"), [some 0, some 2, some 4, some 6, some 8]⟩
        "count" "sum" "count-tok").1[2]? =
      some (GKey.part "count-tok" 2,
        Task.applyFn "count" (GKey.part "arr" 2))) := by
  have h := pw_reduction_with_agg_to_scalar_tasks
    ⟨"arr", some (Meta.tracer "t"), [some 0, some 2, some 4, some 6, some 8]⟩
    "count" "sum" "count-tok"
  exact ⟨h.1, h.2.1 2 (by decide)⟩

/-- C1 witness: the spec's own scenario, divisions `(0,3,6,9)` and index `5`,
satisfies the hypotheses of `normalize_single_outer_inner_index_correct`, and
the function indeed returns partition `1`, inner index `2` (likewise for the
wrap-around of the negative index `-4`). -/
theorem normalize_single_outer_inner_index_witness :
    normalize_single_outer_inner_index [0, 3, 6, 9] 5 = (1, 2) ∧
    normalize_single_outer_inner_index [0, 3, 6, 9] (-4) =
      normalize_single_outer_inner_index [0, 3, 6, 9] 5 := by
  have h := normalize_single_outer_inner_index_correct [0, 3, 6, 9] (-4)
    (by decide) (by decide) (by decide)
  have h2 := h.2 (by decide) (by decide)
  refine ⟨by decide, ?_⟩
  rw [h2]
  decide

/-- C3 counterexample: an `Array` with known divisions `(0, 3, 6)` and an
aligned lazy boolean mask with the same divisions satisfy the alignment
precondition, the selection succeeds, and the result's divisions are
`(0, 3, 6)` — every entry known, contradicting "every entry of its divisions
sequence is unknown". -/
theorem boolean_mask_unknown_divisions_counterexample :
    (DakArray._getitem_boolean_lazy_array
        ⟨"a", some (Meta.tracer "rec"), [some 0, some 3, some 6]⟩
        ⟨"m", some (Meta.tracer "mask"), [some 0, some 3, some 6]⟩
        "getitem-tok").toOption.map (fun r => r.outcome.array.divisions)
      = some [some 0, some 3, some 6] := by
  decide

/-- C3 (amended): for every `Array` `a` and lazy boolean-mask `Array` key
for which the selection succeeds, the result's divisions equal `a`'s
divisions — the code passes `divisions=self.divisions` through, so the
result's divisions are known exactly when `a`'s are, not unconditionally
unknown. -/
theorem boolean_mask_result_divisions (self key : DakArray) (name : String)
    (r : ArrayGraphResult)
    (h : DakArray._getitem_boolean_lazy_array self key name = Except.ok r) :
    r.outcome.array.divisions = self.divisions := by
  unfold DakArray._getitem_boolean_lazy_array at h
  cases hc : checkBoolMaskPartitioning self key <;> rw [hc] at h
  case error e => simp at h
  case ok u =>
    cases hm : boolMaskNewMeta self key <;> rw [hm] at h
    case error e => simp at h
    case ok nm =>
      simp only [new_array_object] at h
      rw [Except.ok.injEq] at h
      subst h
      cases nm <;> rfl

/-- C3 amended-claim witness: concrete aligned operands with known divisions
`(0, 2, 4)`; the selection succeeds and the result's divisions equal the
input's. -/
theorem boolean_mask_result_divisions_witness :
    ({ layer := [(GKey.part "getitem-tokB" 0,
                  Task.getitemKey (GKey.part "x" 0) (GKey.part "mb" 0)),
                 (GKey.part "getitem-tokB" 1,
                  Task.getitemKey (GKey.part "x" 1) (GKey.part "mb" 1))],
       outcome := { array := ⟨"getitem-tokB",
                      some (Meta.selected (Meta.tracer "recB") (Meta.tracer "maskB")),
                      [some 0, some 2, some 4]⟩,
                    computedFirstPartition := false } } :
      ArrayGraphResult).outcome.array.divisions = [some 0, some 2, some 4] :=
  boolean_mask_result_divisions
    ⟨"x", some (Meta.tracer "recB"), [some 0, some 2, some 4]⟩
    ⟨"mb", some (Meta.tracer "maskB"), [some 0, some 2, some 4]⟩
    "getitem-tokB" _ rfl

/-- C8 counterexample: both operands have entirely unknown divisions and the
same partition count (`1`), so the claim asserts the selection does not
raise; but `a`'s metadata is `None` (a state `new_array_object` leaves behind
when typetracer derivation fails), the mask's metadata is present (the
dispatch in `__getitem__` requires it), and
`operator.getitem(self.meta, key.meta)` raises `TypeError`. -/
theorem boolean_mask_alignment_counterexample :
    DakArray._getitem_boolean_lazy_array
        ⟨"a", none, [none, none]⟩
        ⟨"m", some (Meta.tracer "mask"), [none, none]⟩
        "getitem-tokC"
      = Except.error "TypeError: NoneType object is not subscriptable" := by
  rfl

/-- C8 (amended): for every `Array` `a` and lazy boolean-mask `Array` key:
if both have known divisions and the divisions differ, `a[key]` raises a
construction-time error; if both have unknown divisions and equal
`npartitions`, `a[key]` does not raise **provided the metadata getitem is
defined** (`a.meta` present, or `key.meta` absent); if their divisions are
not both known and `npartitions` differ, `a[key]` raises a construction-time
error. -/
theorem boolean_mask_alignment (self key : DakArray) (name : String) :
    (key.known_divisions = true → self.known_divisions = true →
      key.divisions ≠ self.divisions →
      ∃ e, DakArray._getitem_boolean_lazy_array self key name = .error e) ∧
    (key.known_divisions = false → self.known_divisions = false →
      key.npartitions = self.npartitions →
      (self.meta.isSome = true ∨ key.meta = none) →
      ∃ r, DakArray._getitem_boolean_lazy_array self key name = .ok r) ∧
    (¬ (key.known_divisions = true ∧ self.known_divisions = true) →
      key.npartitions ≠ self.npartitions →
      ∃ e, DakArray._getitem_boolean_lazy_array self key name = .error e) := by
  refine ⟨?_, ?_, ?_⟩
  · intro hk hs hne
    have hc : checkBoolMaskPartitioning self key = .error boolMaskError := by
      unfold checkBoolMaskPartitioning
      rw [if_pos (by rw [hk, hs]; rfl), if_neg hne]
    refine ⟨boolMaskError, ?_⟩
    unfold DakArray._getitem_boolean_lazy_array
    rw [hc]
  · intro hk hs hnp hmeta
    have hc : checkBoolMaskPartitioning self key = .ok () := by
      unfold checkBoolMaskPartitioning
      rw [if_neg (by rw [hk]; simp), if_pos hnp]
    have hm : ∃ nm, boolMaskNewMeta self key = .ok nm := by
      unfold boolMaskNewMeta
      rcases hmeta with hsm | hkm
      · cases hkey : key.meta
        · exact ⟨none, rfl⟩
        · cases hself : self.meta
          · rw [hself] at hsm; simp at hsm
          · exact ⟨_, rfl⟩
      · rw [hkm]
        exact ⟨none, rfl⟩
    obtain ⟨nm, hm⟩ := hm
    refine ⟨⟨(self.dask_keys.zip key.dask_keys).enum.map
        (fun ie => (GKey.part name ie.1, Task.getitemKey ie.2.1 ie.2.2)),
      attachArrayMeta name nm self.divisions⟩, ?_⟩
    unfold DakArray._getitem_boolean_lazy_array
    rw [hc, hm]
    simp only [new_array_object]
  · intro hboth hnp
    have hc : checkBoolMaskPartitioning self key = .error boolMaskError := by
      unfold checkBoolMaskPartitioning
      have hff : (key.known_divisions && self.known_divisions) = false := by
        cases hk : key.known_divisions <;> cases hs : self.known_divisions <;>
          simp_all
      rw [hff]
      simp only [Bool.false_eq_true, if_false]
      rw [if_neg hnp]
    refine ⟨boolMaskError, ?_⟩
    unfold DakArray._getitem_boolean_lazy_array
    rw [hc]

/-- C8 amended-claim witness: leg 1 at known divisions `(0,3,6)` vs
`(0,2,6)` (raises), leg 2 at two-partition operands with fully unknown
divisions and both metadata present (succeeds), leg 3 at unknown divisions
with `1` vs `2` partitions (raises). -/
theorem boolean_mask_alignment_witness :
    ((DakArray._getitem_boolean_lazy_array
        ⟨"a1", some (Meta.tracer "r1"), [some 0, some 3, some 6]⟩
        ⟨"m1", some (Meta.tracer "k1"), [some 0, some 2, some 6]⟩
        "g1").toOption = none) ∧
    ((DakArray._getitem_boolean_lazy_array
        ⟨"a2", some (Meta.tracer "r2"), [none, none, none]⟩
        ⟨"m2", some (Meta.tracer "k2"), [none, none, none]⟩
        "g2").toOption.isSome = true) ∧
    ((DakArray._getitem_boolean_lazy_array
        ⟨"a3", some (Meta.tracer "r3"), [none, none]⟩
        ⟨"m3", some (Meta.tracer "k3"), [none, none, none]⟩
        "g3").toOption = none) := by
  refine ⟨?_, ?_, ?_⟩
  · obtain ⟨e, he⟩ := (boolean_mask_alignment
      ⟨"a1", some (Meta.tracer "r1"), [some 0, some 3, some 6]⟩
      ⟨"m1", some (Meta.tracer "k1"), [some 0, some 2, some 6]⟩
      "g1").1 (by decide) (by decide) (by decide)
    rw [he]; rfl
  · obtain ⟨r, hr⟩ := (boolean_mask_alignment
      ⟨"a2", some (Meta.tracer "r2"), [none, none, none]⟩
      ⟨"m2", some (Meta.tracer "k2"), [none, none, none]⟩
      "g2").2.1 (by decide) (by decide) (by decide) (Or.inl (by decide))
    rw [hr]; rfl
  · obtain ⟨e, he⟩ := (boolean_mask_alignment
      ⟨"a3", some (Meta.tracer "r3"), [none, none]⟩
      ⟨"m3", some (Meta.tracer "k3"), [none, none, none]⟩
      "g3").2.2 (by decide) (by decide)
    rw [he]; rfl

/-- C4 counterexample: `map_partitions(func, 7, arr)` — the only `Array`
argument `arr` (divisions `(0, 5)`) is not in position 0.  The claim's
preconditions hold (an `Array` is among the positional arguments, and all
`Array` arguments trivially share `npartitions`), yet the call raises
`AttributeError` on `args[0].divisions` instead of returning an `Array`
with divisions `(0, 5)`. -/
theorem map_partitions_first_argument_counterexample :
    (MPArg.coll ⟨"arr4", some (Meta.tracer "t4"), [some 0, some 5]⟩ ∈
      [MPArg.plain 7, MPArg.coll ⟨"arr4", some (Meta.tracer "t4"), [some 0, some 5]⟩]) ∧
    map_partitions
      [MPArg.plain 7, MPArg.coll ⟨"arr4", some (Meta.tracer "t4"), [some 0, some 5]⟩]
      none "f-tok"
      = Except.error "AttributeError: object has no attribute divisions" := by
  exact ⟨by decide, rfl⟩

/-- C4 (amended): for every `map_partitions` call whose **first** positional
argument is an `Array` `a` (hence `a` is the first `Array` argument among
`args`), the call returns an `Array` whose divisions equal `a.divisions`;
when the first positional argument is not an `Array`, the call raises
instead, regardless of `Array` arguments appearing later. -/
theorem map_partitions_divisions (args : List MPArg) (meta : Option Meta)
    (name : String) (a : DakArray) (h : args.head? = some (MPArg.coll a)) :
    ∃ out, map_partitions args meta name = Except.ok out ∧
      out.array.divisions = a.divisions := by
  cases args with
  | nil => simp at h
  | cons x xs =>
    cases x with
    | plain v => simp at h
    | coll b =>
      have hba : b = a := by simpa using h
      subst hba
      refine ⟨attachArrayMeta name meta b.divisions, rfl, ?_⟩
      cases meta <;> rfl

/-- C4 amended-claim witness: `map_partitions(func, arr, arr2)` with the
`Array` `arr` (divisions `(0, 3, 5)`) first returns an `Array` with
divisions `(0, 3, 5)`. -/
theorem map_partitions_divisions_witness :
    (map_partitions
        [MPArg.coll ⟨"arr5", some (Meta.tracer "t5"), [some 0, some 3, some 5]⟩,
         MPArg.coll ⟨"arr6", some (Meta.tracer "t6"), [some 0, some 3, some 5]⟩]
        none "g-tok").toOption.map (fun o => o.array.divisions)
      = some [some 0, some 3, some 5] := by
  obtain ⟨out, hout, hdiv⟩ := map_partitions_divisions
    [MPArg.coll ⟨"arr5", some (Meta.tracer "t5"), [some 0, some 3, some 5]⟩,
     MPArg.coll ⟨"arr6", some (Meta.tracer "t6"), [some 0, some 3, some 5]⟩]
    none "g-tok"
    ⟨"arr5", some (Meta.tracer "t5"), [some 0, some 3, some 5]⟩ rfl
  rw [hout]
  exact congrArg some hdiv

/-! ### Facts about selector normalization -/

theorem normalizeIntIndex_lt (n : Nat) (i : Int) (k : Nat)
    (h : normalizeIntIndex n i = .ok k) : k < n := by
  simp only [normalizeIntIndex] at h
  set j : Int := if i < 0 then i + n else i with hj
  by_cases hc : 0 ≤ j ∧ j < n
  · rw [if_pos hc] at h
    rw [Except.ok.injEq] at h
    subst h
    omega
  · rw [if_neg hc] at h
    simp at h

theorem normalizeIntList_lt (n : Nat) :
    ∀ (ixs : List Int) (ks : List Nat),
      normalizeIntList n ixs = .ok ks → ∀ k ∈ ks, k < n := by
  intro ixs
  induction ixs with
  | nil =>
    intro ks h k hk
    unfold normalizeIntList at h
    rw [Except.ok.injEq] at h
    subst h
    simp at hk
  | cons x rest ih =>
    intro ks h k hk
    unfold normalizeIntList at h
    cases hx : normalizeIntIndex n x <;> rw [hx] at h
    · simp at h
    · cases hr : normalizeIntList n rest <;> rw [hr] at h
      · simp at h
      · rename_i k0 ks0
        simp only [Except.ok.injEq] at h
        subst h
        rcases List.mem_cons.mp hk with h1 | h2
        · subst h1; exact normalizeIntIndex_lt n x _ hx
        · exact ih ks0 hr k h2

theorem normalizeSlice_lt (n : Nat) (s e : Option Int) :
    ∀ k ∈ normalizeSlice n s e, k < n := by
  intro k hk
  unfold normalizeSlice at hk
  exact List.mem_range.mp (List.mem_filter.mp hk).1

/-- Every key selected by a normalized selector is one of the source
collection's own output keys. -/
theorem selectedKeys_mem (self : DakArray) (index : PSel) (raw : NSel)
    (hn : normalize_index index self.npartitions = .ok raw) :
    ∀ g ∈ selectedKeys self raw, g ∈ self.dask_keys := by
  intro g hg
  unfold DakArray.dask_keys
  cases index with
  | int i =>
    simp only [normalize_index] at hn
    cases hx : normalizeIntIndex self.npartitions i <;> rw [hx] at hn
    · simp [Except.map] at hn
    · rename_i k
      simp only [Except.map, Except.ok.injEq] at hn
      subst hn
      unfold selectedKeys at hg
      simp only [List.mem_singleton] at hg
      subst hg
      exact List.mem_map.mpr
        ⟨k, List.mem_range.mpr (normalizeIntIndex_lt _ _ _ hx), rfl⟩
  | slice s e =>
    simp only [normalize_index, Except.ok.injEq] at hn
    subst hn
    unfold selectedKeys at hg
    obtain ⟨k, hk, rfl⟩ := List.mem_map.mp hg
    exact List.mem_map.mpr
      ⟨k, List.mem_range.mpr (normalizeSlice_lt _ _ _ _ hk), rfl⟩
  | list ixs =>
    simp only [normalize_index] at hn
    cases hx : normalizeIntList self.npartitions ixs <;> rw [hx] at hn
    · simp [Except.map] at hn
    · rename_i ks
      simp only [Except.map, Except.ok.injEq] at hn
      subst hn
      unfold selectedKeys at hg
      obtain ⟨k, hk, rfl⟩ := List.mem_map.mp hg
      exact List.mem_map.mpr
        ⟨k, List.mem_range.mpr (normalizeIntList_lt _ _ _ hx k hk), rfl⟩

/-- Anatomy of a successful `_partitions` call: the selector normalized to
some `raw`, the layer is the enumerated renaming of the selected keys, and
the result's divisions are `partitionsDivisions`; the construction ran the
eager metadata derivation (`meta=None`). -/
theorem partitions_ok_anatomy (self : DakArray) (index : PSel) (name : String)
    (r : ArrayGraphResult)
    (h : DakArray._partitions self index name = Except.ok r) :
    ∃ raw, normalize_index index self.npartitions = .ok raw ∧
      r.layer = (selectedKeys self raw).enum.map
        (fun ik => (GKey.part name ik.1, Task.keyref ik.2)) ∧
      r.outcome.array.divisions =
        partitionsDivisions self raw (selectedKeys self raw).length ∧
      r.outcome.computedFirstPartition = true := by
  unfold DakArray._partitions at h
  cases hn : normalize_index index self.npartitions <;> rw [hn] at h
  · simp at h
  · rename_i raw
    simp only [new_array_object] at h
    rw [Except.ok.injEq] at h
    subst h
    exact ⟨raw, rfl, rfl, rfl, rfl⟩

/-- C5 counterexample: selecting partition `0` of a concrete three-partition
`Array` (which carries a metadata placeholder and known divisions) is not
free of computation: `_partitions` constructs the result with `meta=None`,
so `new_array_object` runs `_get_typetracer`, which executes the backing
graph for the first selected partition through the scheduler. -/
theorem partitions_no_computation_counterexample :
    (DakArray._partitions
        ⟨"src", some (Meta.tracer "t7"), [some 0, some 3, some 6, some 9]⟩
        (PSel.int 0) "partitions-tok").toOption.map
      (fun r => r.outcome.computedFirstPartition) = some true := by
  rfl

/-- C5 (amended): `a.partitions[selector]` builds its layer purely by key
renaming — every task is a bare reference to one of `a`'s own output keys —
but the construction is not computation-free: because the new `Array` is
created with `meta=None`, the metadata fallback computes the first selected
partition's data. -/
theorem partitions_renaming_but_computes (self : DakArray) (index : PSel)
    (name : String) (r : ArrayGraphResult)
    (h : DakArray._partitions self index name = Except.ok r) :
    (∀ t ∈ r.layer, ∃ k ∈ self.dask_keys, t.2 = Task.keyref k) ∧
    r.outcome.computedFirstPartition = true := by
  obtain ⟨raw, hn, hlayer, _, hcomp⟩ := partitions_ok_anatomy self index name r h
  refine ⟨?_, hcomp⟩
  intro t ht
  rw [hlayer] at ht
  obtain ⟨p, hp, rfl⟩ := List.mem_map.mp ht
  exact ⟨p.2, selectedKeys_mem self index raw hn p.2
    (List.snd_mem_of_mem_enum hp), rfl⟩

/-- C5 amended-claim witness: a concrete two-partition slice selection whose
construction ran the eager first-partition compute. -/
theorem partitions_renaming_but_computes_witness :
    ({ layer := [(GKey.part "ptok2" 0, Task.keyref (GKey.part "src2" 0)),
                 (GKey.part "ptok2" 1, Task.keyref (GKey.part "src2" 1))],
       outcome := { array := ⟨"ptok2", some Meta.derived, [none, none, none]⟩,
                    computedFirstPartition := true } } :
      ArrayGraphResult).outcome.computedFirstPartition = true :=
  (partitions_renaming_but_computes
    ⟨"src2", some (Meta.tracer "t8"), [some 0, some 2, some 4]⟩
    (PSel.slice none none) "ptok2" _ rfl).2

/-- C9: the divisions of `a.partitions[selector]` are entirely unknown unless
the selector is a single integer (normalizing to the in-range partition `k`)
and `a`'s divisions are known, in which case they are the two-element
sequence `(0, a.divisions[k+1] - a.divisions[k])`. -/
theorem partitions_divisions_rule (self : DakArray) (index : PSel)
    (name : String) (r : ArrayGraphResult)
    (h : DakArray._partitions self index name = Except.ok r) :
    (∀ i k, index = PSel.int i →
      normalizeIntIndex self.npartitions i = .ok k →
      self.known_divisions = true →
      r.outcome.array.divisions =
        [some 0, some ((self.divisions.getD (k + 1) none).getD 0 -
                       (self.divisions.getD k none).getD 0)]) ∧
    (self.known_divisions = false →
      ∀ d ∈ r.outcome.array.divisions, d = none) ∧
    (∀ s e, index = PSel.slice s e →
      ∀ d ∈ r.outcome.array.divisions, d = none) ∧
    (∀ ixs, index = PSel.list ixs →
      ∀ d ∈ r.outcome.array.divisions, d = none) := by
  obtain ⟨raw, hn, _, hdiv, _⟩ := partitions_ok_anatomy self index name r h
  refine ⟨?_, ?_, ?_, ?_⟩
  · rintro i k rfl hni hkd
    simp only [normalize_index, hni, Except.map, Except.ok.injEq] at hn
    subst hn
    rw [hdiv]
    simp only [partitionsDivisions]
    rw [if_pos hkd]
  · intro hkd d hd
    rw [hdiv] at hd
    cases raw with
    | int k =>
      simp only [partitionsDivisions] at hd
      rw [if_neg (by simp [hkd])] at hd
      exact List.eq_of_mem_replicate hd
    | slice ks =>
      simp only [partitionsDivisions] at hd
      exact List.eq_of_mem_replicate hd
    | list ks =>
      simp only [partitionsDivisions] at hd
      exact List.eq_of_mem_replicate hd
  · rintro s e rfl d hd
    simp only [normalize_index, Except.ok.injEq] at hn
    subst hn
    rw [hdiv] at hd
    simp only [partitionsDivisions] at hd
    exact List.eq_of_mem_replicate hd
  · rintro ixs rfl d hd
    simp only [normalize_index] at hn
    cases hx : normalizeIntList self.npartitions ixs <;> rw [hx] at hn
    · simp [Except.map] at hn
    · simp only [Except.map, Except.ok.injEq] at hn
      subst hn
      rw [hdiv] at hd
      simp only [partitionsDivisions] at hd
      exact List.eq_of_mem_replicate hd

/-- C9 witness: selecting partition `1` of an `Array` with known divisions
`(0, 3, 9)` gives the two-element divisions `(0, 9 - 3) = (0, 6)`. -/
theorem partitions_divisions_rule_witness :
    ({ layer := [(GKey.part "p9" 0, Task.keyref (GKey.part "s9" 1))],
       outcome := { array := ⟨"p9", some Meta.derived, [some 0, some 6]⟩,
                    computedFirstPartition := true } } :
      ArrayGraphResult).outcome.array.divisions = [some 0, some 6] := by
  have h := (partitions_divisions_rule
      ⟨"s9", some (Meta.tracer "t9"), [some 0, some 3, some 9]⟩ (PSel.int 1) "p9"
      { layer := [(GKey.part "p9" 0, Task.keyref (GKey.part "s9" 1))],
        outcome := { array := ⟨"p9", some Meta.derived, [some 0, some 6]⟩,
                     computedFirstPartition := true } }
      rfl).1 1 1 rfl rfl rfl
  exact h.trans (by decide)

/-! ### Facts about the division layout of `from_awkward` -/

theorem ceilDivNat_pos (a b : Nat) (ha : 1 ≤ a) (hb : 1 ≤ b) :
    1 ≤ ceilDivNat a b := by
  unfold ceilDivNat
  rw [Nat.one_le_div_iff (by omega)]
  omega

theorem ceilDivNat_bounds (a b : Nat) (ha : 1 ≤ a) (hb : 1 ≤ b) :
    (ceilDivNat a b - 1) * b < a ∧ a ≤ ceilDivNat a b * b := by
  have hdm := Nat.div_add_mod (a + b - 1) b
  have hmod : (a + b - 1) % b < b := Nat.mod_lt _ (by omega)
  unfold ceilDivNat
  generalize hq : (a + b - 1) / b = q at hdm ⊢
  generalize hrr : (a + b - 1) % b = rr at hdm hmod
  generalize ht : b * q = t at hdm
  constructor
  · have h1 : (q - 1) * b = t - b := by
      rw [Nat.sub_one_mul, Nat.mul_comm, ht]
    rw [h1]
    omega
  · have h2 : q * b = t := by rw [Nat.mul_comm, ht]
    rw [h2]
    omega

/-- The boundary list `locs` of `from_awkward` has `k + 1` entries (for
`k = ceil(nrows / chunksize)`), and entry `i` is `min(i * chunksize, nrows)`:
multiples of the chunk size capped by the total row count. -/
theorem from_awkward_locs_spec (nrows npart : Nat)
    (h1 : 1 ≤ nrows) (h2 : 1 ≤ npart) :
    (from_awkward_locs nrows npart).length
        = ceilDivNat nrows (ceilDivNat nrows npart) + 1 ∧
    ∀ i, i ≤ ceilDivNat nrows (ceilDivNat nrows npart) →
      (from_awkward_locs nrows npart)[i]? =
        some (min (i * ceilDivNat nrows npart) nrows) := by
  have hcs : 1 ≤ ceilDivNat nrows npart := ceilDivNat_pos nrows npart h1 h2
  have hb := ceilDivNat_bounds nrows (ceilDivNat nrows npart) h1 hcs
  constructor
  · unfold from_awkward_locs pyRange0
    simp
  · intro i hi
    unfold from_awkward_locs pyRange0
    rcases Nat.lt_or_ge i (ceilDivNat nrows (ceilDivNat nrows npart)) with hik | hik
    · rw [List.getElem?_append_left (by simp [hik])]
      rw [List.getElem?_map, List.getElem?_range hik]
      simp only [Option.map_some']
      have hlt : i * ceilDivNat nrows npart < nrows :=
        lt_of_le_of_lt
          (Nat.mul_le_mul_right (ceilDivNat nrows npart) (by omega)) hb.1
      rw [Nat.min_eq_left (le_of_lt hlt)]
    · have hik' : i = ceilDivNat nrows (ceilDivNat nrows npart) := by omega
      subst hik'
      rw [List.getElem?_append_right (by simp)]
      simp only [List.length_map, List.length_range]
      rw [Nat.sub_self]
      rw [Nat.min_eq_right hb.2]
      rfl

/-- C10: for every non-empty source (`nrows ≥ 1`) and requested
`npartitions ≥ 1`, `from_awkward` returns an `Array` whose divisions are
fully known, start at `0`, end at `nrows`, and step by
`chunksize = ceil(nrows / npartitions)` (capped by `nrows`); consequently the
result's `npartitions` equals `ceil(nrows / chunksize)`, which can be
strictly smaller than the requested count (see the witness: 6 rows in 4
requested partitions yield 3). -/
theorem from_awkward_partitioning (nrows npart : Nat) (name : String)
    (h1 : 1 ≤ nrows) (h2 : 1 ≤ npart) :
    ∃ out, from_awkward nrows npart name = Except.ok out ∧
      out.array.divisions.all Option.isSome = true ∧
      out.array.npartitions = ceilDivNat nrows (ceilDivNat nrows npart) ∧
      (∀ i, i ≤ out.array.npartitions →
        out.array.divisions[i]? =
          some (some ((min (i * ceilDivNat nrows npart) nrows : Nat) : Int))) ∧
      out.array.divisions[0]? = some (some 0) ∧
      out.array.divisions[out.array.npartitions]? =
        some (some (nrows : Int)) := by
  obtain ⟨hlen, hspec⟩ := from_awkward_locs_spec nrows npart h1 h2
  have hcs : 1 ≤ ceilDivNat nrows npart := ceilDivNat_pos nrows npart h1 h2
  have hb := ceilDivNat_bounds nrows (ceilDivNat nrows npart) h1 hcs
  have hnp : (⟨name, some (Meta.tracer "source-typetracer"),
      (from_awkward_locs nrows npart).map (fun v : Nat => some (v : Int))⟩ :
        DakArray).npartitions = ceilDivNat nrows (ceilDivNat nrows npart) := by
    show ((from_awkward_locs nrows npart).map
      (fun v : Nat => some (v : Int))).length - 1 = _
    rw [List.length_map, hlen]
    omega
  refine ⟨⟨⟨name, some (Meta.tracer "source-typetracer"),
      (from_awkward_locs nrows npart).map (fun v : Nat => some (v : Int))⟩, false⟩,
    rfl, ?_, ?_, ?_, ?_, ?_⟩
  · show ((from_awkward_locs nrows npart).map
      (fun v : Nat => some (v : Int))).all Option.isSome = true
    apply List.all_eq_true.mpr
    intro x hx
    obtain ⟨v, hv, rfl⟩ := List.mem_map.mp hx
    rfl
  · exact hnp
  · intro i hi
    rw [hnp] at hi
    show ((from_awkward_locs nrows npart).map
      (fun v : Nat => some (v : Int)))[i]? = _
    rw [List.getElem?_map, hspec i hi]
    rfl
  · show ((from_awkward_locs nrows npart).map
      (fun v : Nat => some (v : Int)))[0]? = some (some 0)
    rw [List.getElem?_map, hspec 0 (by omega)]
    simp
  · rw [hnp]
    show ((from_awkward_locs nrows npart).map
      (fun v : Nat => some (v : Int)))[ceilDivNat nrows (ceilDivNat nrows npart)]?
        = some (some (nrows : Int))
    rw [List.getElem?_map, hspec _ (le_refl _)]
    rw [Nat.min_eq_right hb.2]
    rfl

/-- C10 witness: 6 rows requested as 4 partitions yield `chunksize = 2`,
divisions `(0, 2, 4, 6)` — fully known, starting at 0, ending at 6 — and
only `3` partitions, strictly fewer than the 4 requested. -/
theorem from_awkward_partitioning_witness :
    (from_awkward 6 4 "fa-tok").toOption.map (fun o => o.array.divisions)
        = some [some 0, some 2, some 4, some 6] ∧
    (from_awkward 6 4 "fa-tok").toOption.map (fun o => o.array.npartitions)
        = some 3 ∧ (3 : Nat) ≠ 4 := by
  obtain ⟨out, hout, hrest⟩ := from_awkward_partitioning 6 4 "fa-tok"
    (by decide) (by decide)
  have h : (Except.ok out : Except String NewArrayOutcome) =
      Except.ok (⟨⟨"fa-tok", some (Meta.tracer "source-typetracer"),
        [some 0, some 2, some 4, some 6]⟩, false⟩ : NewArrayOutcome) := by
    rw [← hout]
    rfl
  rw [Except.ok.injEq] at h
  rw [hout, h]
  exact ⟨rfl, rfl, by decide⟩

/-! ### Facts about the column-projection optimizer -/

theorem project_columns_idem (l : GLayer) (s : Finset String) :
    project_columns (project_columns l s) s = project_columns l s := by
  cases l <;> rfl

theorem project_columns_projectable (l : GLayer) (s : Finset String) :
    isProjectableIO (project_columns l s) = isProjectableIO l := by
  cases l <;> rfl

theorem find?_name_eq_of_mem (ls : List (String × GLayer))
    (nv : String × GLayer) (hnodup : (ls.map Prod.fst).Nodup) (hmem : nv ∈ ls) :
    ls.find? (fun e => e.1 == nv.1) = some nv := by
  induction ls with
  | nil => simp at hmem
  | cons hd tl ih =>
    rw [List.map_cons, List.nodup_cons] at hnodup
    rcases List.mem_cons.mp hmem with heq | htl
    · subst heq
      exact List.find?_cons_of_pos _ (by simp)
    · have h1 : hd.1 ≠ nv.1 := by
        intro h
        apply hnodup.1
        rw [h]
        exact List.mem_map.mpr ⟨nv, htl, rfl⟩
      rw [List.find?_cons_of_neg _ (by simp [h1])]
      exact ih hnodup.2 htl

theorem getLayerD_of_mem (ls : List (String × GLayer)) (nv : String × GLayer)
    (hnodup : (ls.map Prod.fst).Nodup) (hmem : nv ∈ ls) :
    getLayerD ls nv.1 = nv.2 := by
  unfold getLayerD
  rw [find?_name_eq_of_mem ls nv hnodup hmem]
  rfl

theorem setLayer_map_fst (ls : List (String × GLayer)) (n : String)
    (v : GLayer) : (setLayer ls n v).map Prod.fst = ls.map Prod.fst := by
  unfold setLayer
  rw [List.map_map]
  apply List.map_congr_left
  intro nv _
  by_cases h : nv.1 = n <;> simp [h]

/-- Pointwise characterization of the optimizer's update loop: over distinct
layer names, the fold rewrites exactly the entries named in `ns` whose seed
set is non-empty, by the narrowed rebuild on their own layer value. -/
theorem opt_foldl_eq_map (dsk : HLGraph) :
    ∀ (ns : List String) (ls : List (String × GLayer)),
      ns.Nodup → (ls.map Prod.fst).Nodup →
      ns.foldl (optStep dsk) ls
        = ls.map (fun nv =>
            if nv.1 ∈ ns ∧ seedColumns dsk nv.1 ≠ ∅ then
              (nv.1, project_columns nv.2 (seedColumns dsk nv.1))
            else nv) := by
  intro ns
  induction ns with
  | nil =>
    intro ls _ _
    simp only [List.foldl_nil]
    have hcong : ∀ nv ∈ ls,
        (if nv.1 ∈ ([] : List String) ∧ seedColumns dsk nv.1 ≠ ∅ then
          (nv.1, project_columns nv.2 (seedColumns dsk nv.1)) else nv)
        = id nv := by
      intro nv _
      simp
    rw [List.map_congr_left hcong, List.map_id]
  | cons n rest ih =>
    intro ls hns hls
    obtain ⟨hnrest, hrest⟩ := List.nodup_cons.mp hns
    simp only [List.foldl_cons]
    by_cases hseed : seedColumns dsk n = ∅
    · rw [show optStep dsk ls n = ls from by
        unfold optStep; rw [if_neg (by simpa using hseed)]]
      rw [ih ls hrest hls]
      apply List.map_congr_left
      intro nv _
      by_cases h : nv.1 = n
      · rw [if_neg (fun hc => hc.2 (by rw [h]; exact hseed)),
          if_neg (fun hc => hc.2 (by rw [h]; exact hseed))]
      · have hiff : nv.1 ∈ n :: rest ↔ nv.1 ∈ rest := by
          constructor
          · intro hc
            rcases List.mem_cons.mp hc with h1 | h1
            · exact absurd h1 h
            · exact h1
          · exact fun hc => List.mem_cons_of_mem _ hc
        by_cases hm : nv.1 ∈ rest ∧ seedColumns dsk nv.1 ≠ ∅
        · rw [if_pos hm, if_pos ⟨hiff.mpr hm.1, hm.2⟩]
        · rw [if_neg hm, if_neg (fun hc => hm ⟨hiff.mp hc.1, hc.2⟩)]
    · rw [show optStep dsk ls n =
          setLayer ls n (project_columns (getLayerD ls n) (seedColumns dsk n))
        from by unfold optStep; rw [if_pos (by simpa using hseed)]]
      rw [ih _ hrest (by rw [setLayer_map_fst]; exact hls)]
      unfold setLayer
      rw [List.map_map]
      apply List.map_congr_left
      intro nv hmem
      by_cases h : nv.1 = n
      · have hget : getLayerD ls n = nv.2 := by
          rw [← h]
          exact getLayerD_of_mem ls nv hls hmem
        have hnin : nv.1 ∉ rest := by rw [h]; exact hnrest
        simp only [Function.comp_apply, if_pos h, hget]
        rw [if_neg (fun hc => hnin hc.1)]
        rw [if_pos ⟨by rw [h]; exact List.mem_cons_self n rest,
          by rw [h]; exact hseed⟩]
        rw [h]
      · simp only [Function.comp_apply, if_neg h]
        have hiff : nv.1 ∈ n :: rest ↔ nv.1 ∈ rest := by
          constructor
          · intro hc
            rcases List.mem_cons.mp hc with h1 | h1
            · exact absurd h1 h
            · exact h1
          · exact fun hc => List.mem_cons_of_mem _ hc
        by_cases hm : nv.1 ∈ rest ∧ seedColumns dsk nv.1 ≠ ∅
        · rw [if_pos hm, if_pos ⟨hiff.mpr hm.1, hm.2⟩]
        · rw [if_neg hm, if_neg (fun hc => hm ⟨hiff.mp hc.1, hc.2⟩)]

theorem optimizedEntry_fst (dsk : HLGraph) (nv : String × GLayer) :
    (optimizedEntry dsk nv).1 = nv.1 := by
  unfold optimizedEntry
  split <;> rfl

theorem optimizedEntry_projectable (dsk : HLGraph) (nv : String × GLayer) :
    isProjectableIO (optimizedEntry dsk nv).2 = isProjectableIO nv.2 := by
  unfold optimizedEntry
  split
  · exact project_columns_projectable nv.2 _
  · rfl

theorem is_getitem_project (l : GLayer) (s : Finset String) :
    _is_getitem (project_columns l s) = _is_getitem l := by
  cases l <;> rfl

theorem requested_columns_project (l : GLayer) (s : Finset String) :
    _requested_columns (project_columns l s) = _requested_columns l := by
  cases l <;> rfl

/-- With distinct layer names, membership of an entry's name in
`pio_layer_names` is exactly projectability of the entry's layer. -/
theorem mem_pioLayerNames_iff (dsk : HLGraph) (nv : String × GLayer)
    (hnodup : (dsk.layers.map Prod.fst).Nodup) (hmem : nv ∈ dsk.layers) :
    nv.1 ∈ pioLayerNames dsk ↔ isProjectableIO nv.2 = true := by
  unfold pioLayerNames
  constructor
  · intro h
    obtain ⟨nv', hnv', hfst⟩ := List.mem_map.mp h
    have hnv'mem : nv' ∈ dsk.layers := (List.mem_filter.mp hnv').1
    have hproj : isProjectableIO nv'.2 = true := (List.mem_filter.mp hnv').2
    have e1 := find?_name_eq_of_mem dsk.layers nv' hnodup hnv'mem
    have e2 := find?_name_eq_of_mem dsk.layers nv hnodup hmem
    rw [hfst] at e1
    have : nv' = nv := Option.some.inj (e1.symm.trans e2)
    rw [← this]
    exact hproj
  · intro h
    exact List.mem_map.mpr ⟨nv, List.mem_filter.mpr ⟨hmem, h⟩, rfl⟩

theorem pioLayerNames_nodup (dsk : HLGraph)
    (hnodup : (dsk.layers.map Prod.fst).Nodup) : (pioLayerNames dsk).Nodup :=
  hnodup.sublist ((List.filter_sublist dsk.layers).map Prod.fst)

/-- The optimizer never touches the dependency relation. -/
theorem optimize_dependencies_eq (dsk : HLGraph) :
    (optimize_iolayer_columns dsk).dependencies = dsk.dependencies := by
  unfold optimize_iolayer_columns
  split <;> rfl

/-- Characterization of the optimizer's layers dict: every entry is rewritten
by `optimizedEntry` (projectable entries with non-empty seed are narrowed,
all other entries are untouched). -/
theorem optimize_layers_eq (dsk : HLGraph)
    (hnodup : (dsk.layers.map Prod.fst).Nodup) :
    (optimize_iolayer_columns dsk).layers
      = dsk.layers.map (optimizedEntry dsk) := by
  unfold optimize_iolayer_columns
  by_cases hpe : (pioLayerNames dsk).isEmpty = true
  · rw [if_pos hpe]
    have hnil : pioLayerNames dsk = [] := by
      cases hl : pioLayerNames dsk with
      | nil => rfl
      | cons a l => rw [hl] at hpe; simp at hpe
    have hnone : ∀ nv ∈ dsk.layers, isProjectableIO nv.2 = false := by
      intro nv hmem
      by_contra hcon
      have hproj : isProjectableIO nv.2 = true := by
        cases hpp : isProjectableIO nv.2
        · exact absurd hpp hcon
        · rfl
      have := (mem_pioLayerNames_iff dsk nv hnodup hmem).mpr hproj
      rw [hnil] at this
      simp at this
    have hcong : ∀ nv ∈ dsk.layers, optimizedEntry dsk nv = id nv := by
      intro nv hmem
      unfold optimizedEntry
      rw [if_neg (fun hc => by rw [hnone nv hmem] at hc; exact absurd hc.1 (by simp))]
      rfl
    rw [List.map_congr_left hcong, List.map_id]
  · rw [if_neg hpe]
    show (pioLayerNames dsk).foldl (optStep dsk) dsk.layers = _
    rw [opt_foldl_eq_map dsk (pioLayerNames dsk) dsk.layers
      (pioLayerNames_nodup dsk hnodup) hnodup]
    apply List.map_congr_left
    intro nv hmem
    unfold optimizedEntry
    by_cases hc : nv.1 ∈ pioLayerNames dsk ∧ seedColumns dsk nv.1 ≠ ∅
    · rw [if_pos hc,
        if_pos ⟨(mem_pioLayerNames_iff dsk nv hnodup hmem).mp hc.1, hc.2⟩]
    · rw [if_neg hc, if_neg (fun hc2 =>
        hc ⟨(mem_pioLayerNames_iff dsk nv hnodup hmem).mpr hc2.1, hc2.2⟩)]

theorem find?_map_name (f : String × GLayer → String × GLayer)
    (hf : ∀ nv, (f nv).1 = nv.1) (ls : List (String × GLayer)) (n : String) :
    (ls.map f).find? (fun nv => nv.1 == n) =
      (ls.find? (fun nv => nv.1 == n)).map f := by
  induction ls with
  | nil => rfl
  | cons hd tl ih =>
    by_cases h : hd.1 = n
    · rw [List.map_cons,
        List.find?_cons_of_pos _ (by simp [hf hd, h]),
        List.find?_cons_of_pos _ (by simp [h])]
      rfl
    · rw [List.map_cons,
        List.find?_cons_of_neg _ (by simp [hf hd, h]),
        List.find?_cons_of_neg _ (by simp [h])]
      exact ih

/-- Layer lookup in the optimized graph: the looked-up layer is the original
one, narrowed exactly when it is projectable and the seed of that name is
non-empty. -/
theorem optimized_getLayer (dsk : HLGraph)
    (hnodup : (dsk.layers.map Prod.fst).Nodup) (k : String) :
    (optimize_iolayer_columns dsk).getLayer k
      = (dsk.getLayer k).map (fun l =>
          if isProjectableIO l = true ∧ seedColumns dsk k ≠ ∅ then
            project_columns l (seedColumns dsk k)
          else l) := by
  unfold HLGraph.getLayer
  rw [optimize_layers_eq dsk hnodup,
    find?_map_name (optimizedEntry dsk) (optimizedEntry_fst dsk) dsk.layers k]
  cases hf : dsk.layers.find? (fun nv => nv.1 == k) with
  | none => rfl
  | some nv =>
    have hk : nv.1 = k := by
      have := List.find?_some hf
      simpa using this
    simp only [Option.map_some']
    unfold optimizedEntry
    rw [hk]
    by_cases hc : isProjectableIO nv.2 = true ∧ seedColumns dsk k ≠ ∅
    · rw [if_pos hc, if_pos hc]
    · rw [if_neg hc, if_neg hc]

/-- The seed sets of the optimized graph coincide with the original ones:
dependencies are unchanged and projection alters neither `_is_getitem` nor
`_requested_columns` of any layer. -/
theorem seedColumns_optimized (dsk : HLGraph)
    (hnodup : (dsk.layers.map Prod.fst).Nodup) (n : String) :
    seedColumns (optimize_iolayer_columns dsk) n = seedColumns dsk n := by
  have hdep : (optimize_iolayer_columns dsk).dependents n = dsk.dependents n := by
    unfold HLGraph.dependents
    rw [optimize_dependencies_eq dsk]
  unfold seedColumns
  rw [hdep]
  have hfilter : (dsk.dependents n).filter
      (fun k => match (optimize_iolayer_columns dsk).getLayer k with
        | some l => _is_getitem l
        | none => false)
      = (dsk.dependents n).filter
      (fun k => match dsk.getLayer k with
        | some l => _is_getitem l
        | none => false) := by
    apply List.filter_congr
    intro k _
    rw [optimized_getLayer dsk hnodup k]
    cases dsk.getLayer k with
    | none => rfl
    | some l =>
      simp only [Option.map_some']
      by_cases hc : isProjectableIO l = true ∧ seedColumns dsk k ≠ ∅
      · rw [if_pos hc]
        exact is_getitem_project l _
      · rw [if_neg hc]
  rw [hfilter]
  apply List.foldl_ext
  intro acc gid _
  rw [optimized_getLayer dsk hnodup gid]
  cases dsk.getLayer gid with
  | none => rfl
  | some l =>
    simp only [Option.map_some']
    by_cases hc : isProjectableIO l = true ∧ seedColumns dsk gid ≠ ∅
    · rw [if_pos hc, requested_columns_project l _]
    · rw [if_neg hc]

/-- The optimized graph has exactly the same projectable-I/O layer names. -/
theorem pioLayerNames_optimized (dsk : HLGraph)
    (hnodup : (dsk.layers.map Prod.fst).Nodup) :
    pioLayerNames (optimize_iolayer_columns dsk) = pioLayerNames dsk := by
  unfold pioLayerNames
  rw [optimize_layers_eq dsk hnodup, List.filter_map, List.map_map]
  have hp : ((fun nv : String × GLayer => isProjectableIO nv.2) ∘
      optimizedEntry dsk) = (fun nv : String × GLayer => isProjectableIO nv.2) := by
    funext nv
    exact optimizedEntry_projectable dsk nv
  have hfst : (Prod.fst ∘ optimizedEntry dsk)
      = (Prod.fst : String × GLayer → String) := by
    funext nv
    exact optimizedEntry_fst dsk nv
  rw [hp, hfst]

theorem HLGraph.eq_of_parts (g1 g2 : HLGraph) (h1 : g1.layers = g2.layers)
    (h2 : g1.dependencies = g2.dependencies) : g1 = g2 := by
  cases g1
  cases g2
  congr 1

/-- C6: for every graph (with distinct layer names — a dict invariant): if it
contains no column-projectable source layer, it is returned unchanged;
otherwise the dependencies are kept and each layer entry is rewritten by
`optimizedEntry` — a projectable source layer whose direct getitem
dependents request the non-empty field union `S = seedColumns` is replaced
by `project_columns` on exactly `S`, and every other entry (empty seed, or
not a projectable source layer) is left untouched. -/
theorem optimize_iolayer_columns_rewrite (dsk : HLGraph)
    (hnodup : (dsk.layers.map Prod.fst).Nodup) :
    ((∀ nv ∈ dsk.layers, isProjectableIO nv.2 = false) →
      optimize_iolayer_columns dsk = dsk) ∧
    (optimize_iolayer_columns dsk).dependencies = dsk.dependencies ∧
    (optimize_iolayer_columns dsk).layers
      = dsk.layers.map (optimizedEntry dsk) := by
  refine ⟨?_, optimize_dependencies_eq dsk, optimize_layers_eq dsk hnodup⟩
  intro hall
  unfold optimize_iolayer_columns
  rw [if_pos ?hpe]
  case hpe =>
    unfold pioLayerNames
    rw [List.filter_eq_nil_iff.mpr (fun nv hm => by rw [hall nv hm]; simp)]
    rfl

/-- C6 witness, the spec's scenario.  Graph 1: source layer `src` reading all
fields with one dependent getitem layer selecting `["a", "c"]` — after the
pass, `src` is narrowed to exactly `{"a", "c"}` while the getitem layer and
the dependencies stay as they were.  Graph 2: a projectable source layer
with no downstream field-selection is left untouched.  Graph 3: a graph with
no projectable source layer at all passes through unchanged. -/
theorem optimize_iolayer_columns_rewrite_witness :
    ((optimize_iolayer_columns
        ⟨[("src", GLayer.ioLayer true none),
          ("sel", GLayer.blockwiseL true (BwArg.colList ["a", "c"]))],
         [("src", []), ("sel", ["src"])]⟩).layers
      = [("src", GLayer.ioLayer true (some {"a", "c"})),
         ("sel", GLayer.blockwiseL true (BwArg.colList ["a", "c"]))]) ∧
    ((optimize_iolayer_columns
        ⟨[("src2", GLayer.ioLayer true none),
          ("op", GLayer.blockwiseL false (BwArg.colStr "x"))],
         [("op", ["src2"])]⟩).layers
      = [("src2", GLayer.ioLayer true none),
         ("op", GLayer.blockwiseL false (BwArg.colStr "x"))]) ∧
    (optimize_iolayer_columns ⟨[("mat", GLayer.otherL "m")], []⟩
      = ⟨[("mat", GLayer.otherL "m")], []⟩) := by
  refine ⟨?_, ?_, ?_⟩
  · rw [(optimize_iolayer_columns_rewrite
      ⟨[("src", GLayer.ioLayer true none),
        ("sel", GLayer.blockwiseL true (BwArg.colList ["a", "c"]))],
       [("src", []), ("sel", ["src"])]⟩ (by decide)).2.2]
    decide
  · rw [(optimize_iolayer_columns_rewrite
      ⟨[("src2", GLayer.ioLayer true none),
        ("op", GLayer.blockwiseL false (BwArg.colStr "x"))],
       [("op", ["src2"])]⟩ (by decide)).2.2]
    decide
  · exact (optimize_iolayer_columns_rewrite
      ⟨[("mat", GLayer.otherL "m")], []⟩ (by decide)).1 (by decide)

/-- C7: running the column-projection optimizer twice yields the same graph
as running it once (graphs carry distinct layer names — a dict invariant):
the pass keeps dependencies, projectability flags and getitem layers intact,
so the second run recomputes the same seed sets, and re-narrowing an already
narrowed source layer to the same seed set is the identity. -/
theorem optimize_iolayer_columns_idem (dsk : HLGraph)
    (hnodup : (dsk.layers.map Prod.fst).Nodup) :
    optimize_iolayer_columns (optimize_iolayer_columns dsk)
      = optimize_iolayer_columns dsk := by
  have hfst : (Prod.fst ∘ optimizedEntry dsk)
      = (Prod.fst : String × GLayer → String) := by
    funext nv
    exact optimizedEntry_fst dsk nv
  have hnodup2 : ((optimize_iolayer_columns dsk).layers.map Prod.fst).Nodup := by
    rw [optimize_layers_eq dsk hnodup, List.map_map, hfst]
    exact hnodup
  apply HLGraph.eq_of_parts
  · rw [optimize_layers_eq (optimize_iolayer_columns dsk) hnodup2,
      optimize_layers_eq dsk hnodup, List.map_map]
    apply List.map_congr_left
    intro nv _
    show optimizedEntry (optimize_iolayer_columns dsk) (optimizedEntry dsk nv)
      = optimizedEntry dsk nv
    have hseed := seedColumns_optimized dsk hnodup nv.1
    by_cases hc : isProjectableIO nv.2 = true ∧ seedColumns dsk nv.1 ≠ ∅
    · have hdsk : optimizedEntry dsk nv
          = (nv.1, project_columns nv.2 (seedColumns dsk nv.1)) := by
        unfold optimizedEntry
        rw [if_pos hc]
      rw [hdsk]
      unfold optimizedEntry
      rw [if_pos ⟨by
          show isProjectableIO
            (project_columns nv.2 (seedColumns dsk nv.1)) = true
          rw [project_columns_projectable]
          exact hc.1,
        by
          show seedColumns (optimize_iolayer_columns dsk) nv.1 ≠ ∅
          rw [hseed]
          exact hc.2⟩]
      show (nv.1, project_columns (project_columns nv.2 (seedColumns dsk nv.1))
          (seedColumns (optimize_iolayer_columns dsk) nv.1))
        = (nv.1, project_columns nv.2 (seedColumns dsk nv.1))
      rw [hseed, project_columns_idem]
    · have hdsk : optimizedEntry dsk nv = nv := by
        unfold optimizedEntry
        rw [if_neg hc]
      rw [hdsk]
      unfold optimizedEntry
      rw [if_neg (fun hc2 => hc ⟨hc2.1, by
        rw [← hseed]
        exact hc2.2⟩)]
  · exact optimize_dependencies_eq (optimize_iolayer_columns dsk)

/-- C7 witness: the idempotence theorem applied to a concrete graph with a
projectable source layer and a getitem dependent. -/
theorem optimize_iolayer_columns_idem_witness :
    optimize_iolayer_columns (optimize_iolayer_columns
      ⟨[("src3", GLayer.ioLayer true none),
        ("sel3", GLayer.blockwiseL true (BwArg.colStr "b"))],
       [("sel3", ["src3"])]⟩)
      = optimize_iolayer_columns
      ⟨[("src3", GLayer.ioLayer true none),
        ("sel3", GLayer.blockwiseL true (BwArg.colStr "b"))],
       [("sel3", ["src3"])]⟩ :=
  optimize_iolayer_columns_idem
    ⟨[("src3", GLayer.ioLayer true none),
      ("sel3", GLayer.blockwiseL true (BwArg.colStr "b"))],
     [("sel3", ["src3"])]⟩ (by decide)

end DaskAwkward
